import Mathlib

/-!
Verification of the Coding-Parse PDF-TOC extraction pipeline.

Shallow embedding of the relevant Python sources:
  src/models/toc.py, src/models/content.py      (data model)
  src/filter.py                                 (numbered-section filter + repair)
  src/usb_pd_parser.py                          (hierarchy calculation)
  src/components/extraction/content_extractor.py (page ranges, content)
  src/components/extraction/text_processor.py    (truncation, joining)
  src/utils/performance.py, src/utils/security.py
  src/search/indexer.py, src/search/query_processor.py

Python strings are modelled as Lean `String` (a wrapper around `List Char` in
this toolchain); all string operations used by the embedded code are defined
here by structural recursion on the character list, mirroring the Python
semantics (str.strip, str.split, str.lower, html.escape, regular-expression
matching for the concrete patterns appearing in the source).
-/

namespace CP

/-! ## Python string primitives -/

/-- Whitespace for Python str.strip / str.split (space, tab, newline,
carriage return, vertical tab, form feed). -/
def isPySpace (c : Char) : Bool :=
  c = ' ' || c = '\t' || c = '\n' || c = '\r' || c = '\x0b' || c = '\x0c'

/-- Word character for the regex class backslash-w (ASCII reading): letters,
digits, underscore. -/
def isWordChar (c : Char) : Bool :=
  c.isAlpha || c.isDigit || c = '_'

/-- Python str.strip on a character list. -/
def pyStripList (l : List Char) : List Char :=
  ((l.dropWhile isPySpace).reverse.dropWhile isPySpace).reverse

/-- Python str.strip. -/
def pyStrip (s : String) : String := ⟨pyStripList s.toList⟩

/-- Python str.lower (ASCII reading). -/
def pyLower (s : String) : String := ⟨s.toList.map Char.toLower⟩

/-- Split a list at every element satisfying p (the separators are dropped,
empty segments are kept): the semantics of Python re.split on a
single-character class, and the building block for str.split. -/
def splitP (p : Char → Bool) : List Char → List (List Char)
  | [] => [[]]
  | c :: cs =>
    if p c then [] :: splitP p cs
    else
      match splitP p cs with
      | [] => [[c]]
      | t :: ts => (c :: t) :: ts

/-- Python s.split(sep) for a one-character separator sep. -/
def splitChar (sep : Char) (s : String) : List (List Char) :=
  splitP (fun c => c == sep) s.toList

/-- Python s.split() with no argument: whitespace-delimited tokens
(empty tokens discarded). -/
def wsTokens (s : String) : List (List Char) :=
  (splitP isPySpace s.toList).filter (fun t => !t.isEmpty)

/-- Substring test on character lists (Python operator in for strings). -/
def containsSub (pat : List Char) : List Char → Bool
  | [] => pat.isEmpty
  | c :: cs => pat.isPrefixOf (c :: cs) || containsSub pat cs

/-- Python (pat in s) for strings. -/
def strIn (pat s : String) : Bool := containsSub pat.toList s.toList

/-- Character membership in a string (Python c in s). -/
def charIn (c : Char) (s : String) : Bool := s.toList.contains c

/-- Join a list of strings with a separator character. -/
def joinChar (sep : Char) (parts : List (List Char)) : String :=
  ⟨List.intercalate [sep] parts⟩

/-! ## html.escape (Python html module)

html.escape with the default quote=True replaces the five special
characters; since the replacement entities never contain a character that a
later replacement rewrites, the net effect is the per-character map below. -/

/-- Expansion of one character under html.escape(s, quote=True). -/
def escChar (c : Char) : List Char :=
  if c = '&' then ['&', 'a', 'm', 'p', ';']
  else if c = '<' then ['&', 'l', 't', ';']
  else if c = '>' then ['&', 'g', 't', ';']
  else if c = '"' then ['&', 'q', 'u', 'o', 't', ';']
  else if c = '\'' then ['&', '#', 'x', '2', '7', ';']
  else [c]

/-- html.escape on a character list. -/
def htmlEscapeList : List Char → List Char
  | [] => []
  | c :: cs => escChar c ++ htmlEscapeList cs

/-- Python html.escape(s, quote=True). -/
def htmlEscape (s : String) : String := ⟨htmlEscapeList s.toList⟩

/-- Test for the five characters that html.escape rewrites. -/
def isHtmlSpecial (c : Char) : Bool :=
  c = '&' || c = '<' || c = '>' || c = '"' || c = '\''

/-! ## Data model: TOCEntry (src/models/toc.py)

The dataclass fields children and metadata are not read or written by any
of the verified operations and are omitted from the embedding. -/

structure TOCEntry where
  doc_title : String
  section_id : String
  title : String
  page : Int
  level : Int
  parent_id : Option String
  full_path : String
  deriving Repr, DecidableEq, Inhabited

/-- Constructor of TOCEntry followed by its post-init pass
(src/models/toc.py, TOCEntry.post_init): clamp negative page and level to 0,
html-escape doc_title and title when non-empty, and derive full_path from
section_id and the escaped title when no full_path was given. -/
def mkTOCEntry (doc_title section_id title : String) (page level : Int)
    (parent_id : Option String) (full_path : String) : TOCEntry :=
  let page' := if page < 0 then 0 else page
  let level' := if level < 0 then 0 else level
  let dt := if doc_title ≠ "" then htmlEscape doc_title else ""
  let t := if title ≠ "" then htmlEscape title else ""
  let fp := if full_path = "" then
      (if section_id ≠ "" then section_id ++ " " ++ t else t)
    else full_path
  ⟨dt, section_id, t, page', level', parent_id, fp⟩

/-! ## Dotted section identifiers -/

/-- Components of a section identifier: Python section_id.split(dot). -/
def dotParts (s : String) : List (List Char) := splitChar '.' s

/-- Number of dot-separated components. -/
def dotCount (s : String) : Nat := (dotParts s).length

/-- Test for a full match of the regular expression
caret backslash-d plus (backslash-dot backslash-d plus) star dollar:
every dot-separated component is non-empty and purely made of digits. -/
def fullyNumeric (s : String) : Bool :=
  (dotParts s).all (fun p => !p.isEmpty && p.all Char.isDigit)

/-- Modelled from the spec: the constant SECTION_PATTERN is imported by
src/filter.py from the constants module but is not defined anywhere under
src/; per spec section 4.3 the numbered-section filter pattern is
caret backslash-d plus (backslash-dot backslash-d plus) star dollar.
This definition gives the semantics of Python re.match for that pattern:
the match is anchored at the start, and the dollar anchor accepts either the
end of the string or a position just before a single trailing newline, so
the whole string matches exactly when it is fully numeric-dotted or becomes
so after removing one trailing newline. -/
def pyMatchSectionPattern (s : String) : Bool :=
  fullyNumeric s ||
    (s.toList.getLast? == some '\n' && fullyNumeric ⟨s.toList.dropLast⟩)

/-! ## Numbered-section filter (src/filter.py) -/

/-- NumberedSectionFilter.is_numbered_section: the section_id is truthy and
re.match(SECTION_PATTERN, section_id) succeeds. -/
def isNumberedSection (e : TOCEntry) : Bool :=
  !(e.section_id == "") && pyMatchSectionPattern e.section_id

/-- The body of the falsy-parent normalisation inside
NumberedSectionFilter.filter: a falsy parent_id (None or the empty string)
is replaced by None. -/
def normalizeParent : Option String → Option String
  | some p => if p = "" then none else some p
  | none => none

/-- NumberedSectionFilter.filter: keep the numbered entries, normalising a
falsy parent_id to None on each kept entry. -/
def numberedFilter (entries : List TOCEntry) : List TOCEntry :=
  entries.filterMap (fun e =>
    if isNumberedSection e then some { e with parent_id := normalizeParent e.parent_id }
    else none)

/-- Candidate ancestor identifier: the first i dot-separated components of
sid joined with dots (Python dot.join(parts[:i])). -/
def dotCand (sid : String) (i : Nat) : String :=
  joinChar '.' ((dotParts sid).take i)

/-- The countdown loop of SectionFilter.find_closest_parent:
for i in range(len(parts) - 1, 0, -1), return the first candidate present
in available_ids. fcpLoop parts ids n tries i = n, n-1, ..., 1. -/
def fcpLoop (sid : String) (ids : List String) : Nat → Option String
  | 0 => none
  | i + 1 =>
    let cand := dotCand sid (i + 1)
    if ids.contains cand then some cand else fcpLoop sid ids i

/-- SectionFilter.find_closest_parent. -/
def findClosestParent (sid : String) (ids : List String) : Option String :=
  if sid = "" || !charIn '.' sid then none
  else fcpLoop sid ids (dotCount sid - 1)

/-- The per-entry body of SectionFilter.ensure_hierarchy_consistency:
when the entry's parent_id is truthy and absent from the batch identifiers,
replace it by the closest existing parent. -/
def repairEntry (ids : List String) (e : TOCEntry) : TOCEntry :=
  match e.parent_id with
  | some p =>
    if p ≠ "" ∧ ids.contains p = false then
      { e with parent_id := findClosestParent e.section_id ids }
    else e
  | none => e

/-- SectionFilter.ensure_hierarchy_consistency. -/
def ensureHierarchyConsistency (entries : List TOCEntry) : List TOCEntry :=
  let ids := entries.map (fun e => e.section_id)
  entries.map (repairEntry ids)

/-- SectionFilter.filter_numbered_sections with the default (non-composite)
strategy: the numbered filter followed by the hierarchy-consistency repair
(the empty-input early return included). -/
def filterNumberedSections (entries : List TOCEntry) : List TOCEntry :=
  if entries.isEmpty then []
  else ensureHierarchyConsistency (numberedFilter entries)

/-! ## Hierarchy calculation (src/usb_pd_parser.py)

USBPDParser._calculate_hierarchy processes parsed TOC dictionaries; the
embedding keeps the three fields the function reads. -/

/-- Input record of USBPDParser._calculate_hierarchy (one parsed TOC line). -/
structure RawEntry where
  section_id : String
  title : String
  page : Int
  deriving Repr, DecidableEq, Inhabited

/-- Output record of USBPDParser._calculate_hierarchy. -/
structure ProcEntry where
  doc_title : String
  section_id : String
  title : String
  page : Int
  level : Nat
  parent_id : Option String
  full_path : String
  deriving Repr, DecidableEq, Inhabited

/-- Loop body of USBPDParser._calculate_hierarchy: skip entries with empty
section_id; compute level as the dot-component count; pop the parent stack
while its length is at least the level (so keep its first level-1 elements);
take the stack top as parent; emit the processed entry; push the current
section_id. -/
def calcHierarchyAux (dt : String) (stack : List String) :
    List RawEntry → List ProcEntry
  | [] => []
  | r :: rest =>
    if r.section_id = "" then calcHierarchyAux dt stack rest
    else
      let level := dotCount r.section_id
      let newStack := stack.take (level - 1)
      { doc_title := dt, section_id := r.section_id, title := r.title,
        page := r.page, level := level, parent_id := newStack.getLast?,
        full_path := r.section_id ++ " " ++ r.title } ::
        calcHierarchyAux dt (newStack ++ [r.section_id]) rest

/-- USBPDParser._calculate_hierarchy. -/
def calcHierarchy (dt : String) (es : List RawEntry) : List ProcEntry :=
  calcHierarchyAux dt [] es

/-- Depths (dot-component counts) of the retained input entries, in order. -/
def retainedDepths (es : List RawEntry) : List Nat :=
  (es.filter (fun e => !(e.section_id == ""))).map
    (fun e => dotCount e.section_id)

/-- Gap-freedom of a depth sequence relative to a previous depth: each
element exceeds its predecessor by at most one. -/
def chainFromB (prev : Nat) : List Nat → Bool
  | [] => true
  | d :: rest => if d ≤ prev + 1 then chainFromB d rest else false

/-! ## Word counting (src/utils/performance.py) -/

/-- PerformanceOptimizer.efficient_word_count: the number of matches of the
pre-compiled WORD_PATTERN, the regex
word-boundary backslash-w repeated at least twice word-boundary,
which is the number of maximal runs of word characters of length at least
two (the empty string yields 0, matching the early return). -/
def efficientWordCount (s : String) : Nat :=
  ((splitP (fun c => !isWordChar c) s.toList).filter
    (fun r => 2 ≤ r.length)).length

/-- Count of whitespace-delimited tokens, following the claim's words
(Python len(content.split())); kept separate from the source-derived
efficientWordCount for comparison. -/
def pyWhitespaceTokenCount (s : String) : Nat := (wsTokens s).length

/-! ## Data model: ContentEntry (src/models/content.py)

The metadata field, unused by the verified operations, is omitted; image
and table descriptors carry the fields the extractor fills in. -/

/-- Image descriptor appended by ContentExtractor._extract_images. -/
structure ImageRec where
  page : Int
  index : Nat
  width : Int
  height : Int
  deriving Repr, DecidableEq, Inhabited

/-- Table descriptor appended by ContentExtractor._extract_tables. -/
structure TableRec where
  page : Int
  index : Nat
  rows : Nat
  deriving Repr, DecidableEq, Inhabited

structure ContentEntry where
  doc_title : String
  section_id : String
  title : String
  page_range : String
  content : String
  content_type : String
  has_content : Bool
  word_count : Nat
  images : List ImageRec
  tables : List TableRec
  deriving Repr, DecidableEq, Inhabited

/-- Constructor of ContentEntry followed by its post-init pass
(src/models/content.py): for non-empty content the word_count is the
efficient word count and has_content tells whether the stripped content is
non-empty; for empty content both derived fields are zeroed. -/
def mkContentEntry (doc_title section_id title page_range content : String)
    (images : List ImageRec) (tables : List TableRec) : ContentEntry :=
  if content ≠ "" then
    { doc_title := doc_title, section_id := section_id, title := title,
      page_range := page_range, content := content,
      content_type := "section_with_images_tables",
      has_content := !(pyStrip content == ""),
      word_count := efficientWordCount content,
      images := images, tables := tables }
  else
    { doc_title := doc_title, section_id := section_id, title := title,
      page_range := page_range, content := content,
      content_type := "section_with_images_tables",
      has_content := false, word_count := 0,
      images := images, tables := tables }

/-! ## Content extraction (src/components/extraction/) -/

/-- The constant DOC_TITLE from src/constants.py. -/
def DOC_TITLE : String := "USB Power Delivery Specification"

/-- The constant CONTENT_LIMIT from src/constants.py. -/
def CONTENT_LIMIT : Nat := 50000

/-- The constant PARALLEL_THRESHOLD from src/constants.py. -/
def PARALLEL_THRESHOLD : Nat := 100

/-- The document as seen through PDFProcessor: per-page extracted text,
per-page image tuples (width, height), and per-page text blocks, a block
being the list of span counts of its lines (the only data
ContentExtractor._is_table_block inspects). -/
structure Doc where
  pages : List String
  pageImages : List (List (Int × Int))
  pageBlocks : List (List (List Nat))
  deriving Repr, Inhabited

/-- ContentExtractor._get_cached_page_count (the processor's page count). -/
def pageCount (d : Doc) : Nat := d.pages.length

/-- Python range(a, b) over integers. -/
def intRange (a b : Int) : List Int :=
  (List.range (b - a).toNat).map (fun k => a + (k : Int))

/-- ContentExtractor._get_page_text: empty for negative page numbers and
pages beyond the page count, otherwise the stripped page text. -/
def getPageText (d : Doc) (n : Int) : String :=
  if n < 0 then ""
  else if n < (pageCount d : Int) then pyStrip (d.pages.getD n.toNat "")
  else ""

/-- TextProcessor.join_page_texts: keep the stripped texts that remain
non-empty and join them with newlines. -/
def joinPageTexts (ts : List String) : String :=
  ⟨List.intercalate ['\n'] ((ts.filterMap (fun t =>
    let u := pyStrip t
    if u ≠ "" then some u else none)).map String.toList)⟩

/-- ContentExtractor._extract_text: collect the truthy page texts over
range(start - 1, min(end, page_count)) and join them. -/
def extractText (d : Doc) (s e : Int) : String :=
  joinPageTexts ((intRange (s - 1) (min e (pageCount d : Int))).filterMap
    (fun n =>
      let t := getPageText d n
      if t ≠ "" then some t else none))

/-- Prefix of a character list before its last space
(Python truncated.rsplit(' ', 1)[0]). -/
def beforeLastSpace (l : List Char) : List Char :=
  (((l.reverse.dropWhile (fun c => !(c == ' '))).drop 1)).reverse

/-- TextProcessor.truncate_content with the default CONTENT_LIMIT. -/
def truncateContent (content : String) : String :=
  if content.toList.length ≤ CONTENT_LIMIT then content
  else
    let tl := content.toList.take CONTENT_LIMIT
    if tl.contains ' ' then
      let r := beforeLastSpace tl
      if pyStripList r ≠ [] then ⟨r⟩ else ⟨tl⟩
    else ⟨tl⟩

/-- The look-ahead loop inside ContentExtractor._find_section_end: the page
of the first later entry whose level is at most lvl. -/
def findPeerPage (lvl : Int) : List TOCEntry → Option Int
  | [] => none
  | x :: xs => if x.level ≤ lvl then some x.page else findPeerPage lvl xs

/-- ContentExtractor._find_section_end: the first later peer bounds the
section at max(entry.page, peer.page - 1); with no peer the section extends
to min(entry.page + 10, page_count). -/
def findSectionEnd (pc : Int) (entry : TOCEntry) (all : List TOCEntry)
    (index : Nat) : Int :=
  match findPeerPage entry.level (all.drop (index + 1)) with
  | some pg => max entry.page (pg - 1)
  | none => min (entry.page + 10) pc

/-- The end page computed by the branching part of
ContentExtractor._get_page_range, before the minimum-coverage widening:
bound by the next entry when it is a peer or ancestor, otherwise look ahead
for the next peer; the last entry extends to max(start, page count). -/
def pageRangeEndBase (pc : Int) (entry : TOCEntry) (all : List TOCEntry)
    (index : Nat) : Int :=
  if index + 1 < all.length then
    (if (all.getD (index + 1) default).level ≤ entry.level then
      max (max 1 entry.page) ((all.getD (index + 1) default).page - 1)
    else findSectionEnd pc entry all index)
  else max (max 1 entry.page) pc

/-- ContentExtractor._get_page_range: start at max(1, page); compute the
branching end; finally a section of fewer than two pages at level at most 2
is widened to min(start + 3, page_count). -/
def getPageRange (pc : Int) (entry : TOCEntry) (all : List TOCEntry)
    (index : Nat) : Int × Int :=
  (max 1 entry.page,
   if pageRangeEndBase pc entry all index - max 1 entry.page < 2 ∧
       entry.level ≤ 2 then
     min (max 1 entry.page + 3) pc
   else pageRangeEndBase pc entry all index)

/-- ContentExtractor._extract_images over the embedded per-page image data. -/
def extractImages (d : Doc) (s e : Int) : List ImageRec :=
  ((intRange (s - 1) (min e (pageCount d : Int))).map (fun n =>
    ((d.pageImages.getD n.toNat []).enum.map (fun jwh =>
      ({ page := n + 1, index := jwh.1, width := jwh.2.1,
         height := jwh.2.2 } : ImageRec))))).flatten

/-- ContentExtractor._is_table_block: at least two lines, at most two
distinct span counts, and some line with more than two spans. -/
def isTableBlock (b : List Nat) : Bool :=
  if b.length < 2 then false
  else (b.dedup.length ≤ 2) && b.any (fun c => 2 < c)

/-- ContentExtractor._extract_tables over the embedded per-page blocks. -/
def extractTables (d : Doc) (s e : Int) : List TableRec :=
  ((intRange (s - 1) (min e (pageCount d : Int))).map (fun n =>
    (((d.pageBlocks.getD n.toNat []).filter isTableBlock).enum.map (fun jb =>
      ({ page := n + 1, index := jb.1, rows := jb.2.length }
        : TableRec))))).flatten

/-- ContentExtractor._extract_single: resolve the page range, extract and
truncate the text, and build the ContentEntry with image and table
metadata. -/
def extractSingle (d : Doc) (entry : TOCEntry) (all : List TOCEntry)
    (index : Nat) : ContentEntry :=
  let se := getPageRange ((pageCount d : Int)) entry all index
  let content := truncateContent (extractText d se.1 se.2)
  mkContentEntry DOC_TITLE entry.section_id entry.title
    (toString se.1 ++ "-" ++ toString se.2) content
    (extractImages d se.1 se.2) (extractTables d se.1 se.2)

/-- ContentExtractor._extract_sequential: extract each entry whose
section_id is truthy and strips to a non-empty string. -/
def extractSequential (d : Doc) (entries : List TOCEntry) :
    List ContentEntry :=
  entries.enum.filterMap (fun ie =>
    if ie.2.section_id ≠ "" ∧ pyStrip ie.2.section_id ≠ "" then
      some (extractSingle d ie.2 entries ie.1)
    else none)

/-- ParallelExtractor.extract_parallel: every index is submitted and the
results are collected back in input order. -/
def extractParallel (d : Doc) (entries : List TOCEntry) :
    List ContentEntry :=
  entries.enum.map (fun ie => extractSingle d ie.2 entries ie.1)

/-- ContentExtractor.extract: empty input yields no entries; at or above
the parallel threshold the parallel strategy runs, below it the
sequential one. -/
def extract (d : Doc) (entries : List TOCEntry) : List ContentEntry :=
  if entries.isEmpty then []
  else if PARALLEL_THRESHOLD ≤ entries.length then extractParallel d entries
  else extractSequential d entries

/-- Statement-side end page following the amended claim's words: when a
later entry of level at most the current level exists, the end is (first
such entry's page) - 1 clamped below by the start; with no such entry a
non-final entry ends at min(start + 10, page count) and the last entry ends
at max(start, page count). -/
def specEndBase (pc : Int) (entry : TOCEntry) (all : List TOCEntry)
    (index : Nat) : Int :=
  match (all.drop (index + 1)).find?
      (fun x => decide (x.level ≤ entry.level)) with
  | some b => max (max 1 entry.page) (b.page - 1)
  | none =>
    if index + 1 < all.length then min (max 1 entry.page + 10) pc
    else max (max 1 entry.page) pc

/-- Statement-side resolver of the amended claim: the range starts at
max(1, page), ends at the statement-side end page, and an entry of level at
most 2 whose range is shorter than two pages is widened to
min(start + 3, page count). -/
def specResolvedRange (pc : Int) (entry : TOCEntry) (all : List TOCEntry)
    (index : Nat) : Int × Int :=
  (max 1 entry.page,
   if specEndBase pc entry all index - max 1 entry.page < 2 ∧
       entry.level ≤ 2 then
     min (max 1 entry.page + 3) pc
   else specEndBase pc entry all index)

/-- The spec's 8-page example: bookmarks 1, 1.1, 1.2, 2 on pages 1, 2, 4, 6. -/
def exampleEntries : List TOCEntry :=
  [⟨DOC_TITLE, "1", "Introduction", 1, 1, none, ""⟩,
   ⟨DOC_TITLE, "1.1", "Overview", 2, 2, some "1", ""⟩,
   ⟨DOC_TITLE, "1.2", "Scope", 4, 2, some "1", ""⟩,
   ⟨DOC_TITLE, "2", "Requirements", 6, 1, none, ""⟩]

/-! ## Secure path validation (src/utils/security.py)

Filesystem paths are modelled as lists of components; the pre-resolved base
directory is such a list. Path.resolve(strict=False) applied to
base joined with a single component that is neither dot nor dot-dot and
contains no separator is the identity on that path, and relative_to(base)
then succeeds, so the success value is the component list base ++ [name]. -/

/-- Python str.replace of the NUL character by the empty string. -/
def removeNul (s : String) : String :=
  ⟨s.toList.filter (fun c => !(c == '\x00'))⟩

/-- The sanitised name str(filename).replace(NUL, '').strip() computed by
SecurePathValidator.validate_and_resolve. -/
def cleanNameOf (filename : String) : String := pyStrip (removeNul filename)

/-- PurePosixPath(s).name for a string s free of path separators: the dot
path has no final component, every other such string is its own name. -/
def posixName (clean : String) : String := if clean = "." then "" else clean

/-- SecurePathValidator.validate_and_resolve: reject empty input, a name
that sanitises to nothing, an absolute path, any occurrence of dot-dot or a
path separator, and a final component that is empty or dot or dot-dot;
otherwise resolve to the base directory extended by the single component. -/
def validateAndResolve (filename : String) (base : List String) :
    Except String (List String) :=
  if filename = "" then Except.error "Filename cannot be empty"
  else if cleanNameOf filename = "" then
    Except.error "Invalid filename after sanitization"
  else if (cleanNameOf filename).toList.head? = some '/' then
    Except.error "Absolute paths not allowed"
  else if strIn ".." (cleanNameOf filename) = true ∨
      charIn '/' (cleanNameOf filename) = true ∨
      charIn '\\' (cleanNameOf filename) = true then
    Except.error "Path traversal attempts not allowed"
  else if posixName (cleanNameOf filename) = "" ∨
      posixName (cleanNameOf filename) = "." ∨
      posixName (cleanNameOf filename) = ".." ∨
      charIn '/' (posixName (cleanNameOf filename)) = true ∨
      charIn '\\' (posixName (cleanNameOf filename)) = true then
    Except.error "Invalid filename"
  else Except.ok (base ++ [posixName (cleanNameOf filename)])

/-! ## Search index and querying (src/search/)

Parsed JSONL rows are embedded as records carrying the fields the search
code reads; Python dictionaries are embedded as association lists in key
insertion order with value update in place, and Python sets of indices as
insertion-ordered duplicate-free lists. -/

/-- A parsed TOC row as the indexer sees it. -/
structure IdxRow where
  section_id : String
  title : String
  page : Int
  deriving Repr, DecidableEq, Inhabited

/-- A parsed content-file row as the content search sees it. -/
structure CRow where
  section_id : String
  title : String
  page : Int
  content : String
  deriving Repr, DecidableEq, Inhabited

/-- A formatted search result (QueryProcessor._format_result). -/
structure SResult where
  section_id : String
  title : String
  page : Int
  match_type : String
  deriving Repr, DecidableEq, Inhabited

/-- QueryProcessor._format_result on a TOC row. -/
def fmtResult (e : IdxRow) (mt : String) : SResult :=
  ⟨e.section_id, e.title, e.page, mt⟩

/-- QueryProcessor._format_result on a content row. -/
def fmtResultC (r : CRow) (mt : String) : SResult :=
  ⟨r.section_id, r.title, r.page, mt⟩

/-- The WORD_PATTERN tokeniser shared by SearchIndexer._tokenize and
QueryProcessor._tokenize_query: the maximal word-character runs of length
at least two of the lowercased text, in order. -/
def tokenizeWords (s : String) : List String :=
  ((splitP (fun c => !isWordChar c) (pyLower s).toList).filter
    (fun r => 2 ≤ r.length)).map (fun l => ⟨l⟩)

/-- Lookup in an embedded Python dictionary. -/
def lookupD : List (String × Nat) → String → Option Nat
  | [], _ => none
  | kv :: rest, k => if kv.1 = k then some kv.2 else lookupD rest k

/-- Lookup in an embedded Python dictionary of index lists. -/
def lookupW : List (String × List Nat) → String → Option (List Nat)
  | [], _ => none
  | kv :: rest, k => if kv.1 = k then some kv.2 else lookupW rest k

/-- Assignment d[k] = v on an embedded Python dictionary: update the value
in place when the key exists (keys are unique by construction), append the
pair otherwise. -/
def dictInsert (k : String) (v : Nat) :
    List (String × Nat) → List (String × Nat)
  | [] => [(k, v)]
  | kv :: rest =>
    if kv.1 = k then (k, v) :: rest else kv :: dictInsert k v rest

/-- Python set.add on an insertion-ordered index set. -/
def setAdd (i : Nat) (s : List Nat) : List Nat :=
  if s.contains i then s else s ++ [i]

/-- word_index[word].add(i) on the embedded defaultdict of index sets. -/
def multiDictAdd (k : String) (i : Nat) :
    List (String × List Nat) → List (String × List Nat)
  | [] => [(k, [i])]
  | kv :: rest =>
    if kv.1 = k then (kv.1, setAdd i kv.2) :: rest
    else kv :: multiDictAdd k i rest

/-- The SearchIndexer state. -/
structure SIndex where
  entries : List IdxRow
  word_index : List (String × List Nat)
  section_index : List (String × Nat)
  section_index_lower : List (String × Nat)
  deriving Repr, Inhabited

/-- SearchIndexer._index_entry: index the title words under the entry
index, and a truthy section_id in both section maps. -/
def indexEntry (st : SIndex) (e : IdxRow) (i : Nat) : SIndex :=
  let wi := (tokenizeWords e.title).foldl
    (fun w word => multiDictAdd word i w) st.word_index
  if e.section_id ≠ "" then
    { st with
      word_index := wi
      section_index := dictInsert e.section_id i st.section_index
      section_index_lower :=
        dictInsert (pyLower e.section_id) i st.section_index_lower }
  else { st with word_index := wi }

/-- SearchIndexer._process_batch: above 5000 entries, keep the last 5000
and rebuild all indices over them. -/
def processBatch (st : SIndex) : SIndex :=
  if 5000 < st.entries.length then
    let es := st.entries.drop (st.entries.length - 5000)
    es.enum.foldl (fun s ie => indexEntry s ie.2 ie.1) ⟨es, [], [], []⟩
  else st

/-- SearchIndexer._process_line on an already-parsed row: run the batch
eviction above 10000 stored entries, append the row, index it under the
running counter, and advance the counter. -/
def processLine (st : SIndex) (counter : Nat) (row : IdxRow) :
    SIndex × Nat :=
  let st1 := if 10000 < st.entries.length then processBatch st else st
  let st2 : SIndex := { st1 with entries := st1.entries ++ [row] }
  (indexEntry st2 row counter, counter + 1)

/-- SearchIndexer.build_index over the parsed rows of the TOC file. -/
def buildIndex (rows : List IdxRow) : SIndex :=
  (rows.foldl (fun sc r => processLine sc.1 sc.2 r) (⟨[], [], [], []⟩, 0)).1

/-- QueryProcessor.search_by_section_id: the exact section match first,
then the partial matches over the first fifty lowercased identifiers,
excluding the exact match's section_id. -/
def searchBySectionId (st : SIndex) (q : String) : List SResult :=
  (match lookupD st.section_index q with
   | some i => [fmtResult (st.entries.getD i default) "exact_section"]
   | none => []) ++
  (st.section_index_lower.take 50).filterMap (fun kv =>
    if strIn (pyLower q) kv.1 = true ∧
        ¬ ((match lookupD st.section_index q with
            | some j => [(st.entries.getD j default).section_id]
            | none => []).contains
          (st.entries.getD kv.2 default).section_id = true) then
      some (fmtResult (st.entries.getD kv.2 default) "partial_section")
    else none)

/-- QueryProcessor.search_by_text: collect the union of the posting lists
of the query words and format every candidate row. -/
def searchByText (st : SIndex) (q : String) : List SResult :=
  let ws := tokenizeWords q
  if ws.isEmpty then []
  else
    (ws.foldl (fun acc w =>
      ((lookupW st.word_index w).getD []).foldl (fun a i => setAdd i a) acc)
      []).map (fun i => fmtResult (st.entries.getD i default) "text_match")

/-- QueryProcessor.search_content_file over the parsed content rows: keep
the rows whose lowercased content contains the lowercased query. -/
def searchContentFile (crows : List CRow) (q : String) : List SResult :=
  crows.filterMap (fun r =>
    if strIn (pyLower q) (pyLower r.content) = true then
      some (fmtResultC r "content_match")
    else none)

/-- The deduplication loop of QueryProcessor.batch_search: keep the first
result seen for each section_id. -/
def dedupSeen (seen : List String) : List SResult → List SResult
  | [] => []
  | r :: rest =>
    if seen.contains r.section_id then dedupSeen seen rest
    else r :: dedupSeen (seen ++ [r.section_id]) rest

/-- QueryProcessor.batch_search: section-id search, then text search, then
the content file, deduplicated by section_id in first-seen order. -/
def batchSearch (st : SIndex) (q : String) (crows : List CRow) :
    List SResult :=
  dedupSeen []
    (searchBySectionId st q ++ searchByText st q ++ searchContentFile crows q)

end CP

/-! ## Theorems -/

namespace CP

theorem escChar_length_pos (c : Char) : 0 < (escChar c).length := by
  unfold escChar
  repeat' split
  all_goals simp

theorem escChar_length_of_special (c : Char) (h : isHtmlSpecial c = true) :
    2 ≤ (escChar c).length := by
  unfold isHtmlSpecial at h
  unfold escChar
  repeat' split
  all_goals simp_all

theorem htmlEscapeList_length_ge (l : List Char) :
    l.length ≤ (htmlEscapeList l).length := by
  induction l with
  | nil => simp [htmlEscapeList]
  | cons c cs ih =>
    simp only [htmlEscapeList, List.length_append, List.length_cons]
    have := escChar_length_pos c
    omega

theorem htmlEscapeList_length_gt (l : List Char)
    (h : l.any isHtmlSpecial = true) :
    l.length < (htmlEscapeList l).length := by
  induction l with
  | nil => simp at h
  | cons c cs ih =>
    simp only [List.any_cons, Bool.or_eq_true] at h
    simp only [htmlEscapeList, List.length_append, List.length_cons]
    rcases h with h | h
    · have h2 := escChar_length_of_special c h
      have h3 := htmlEscapeList_length_ge cs
      omega
    · have h2 := escChar_length_pos c
      have h3 := ih h
      omega

/-- C10: a TOCEntry constructed with non-empty title and doc_title stores
their html-escaped forms (ampersand, angle brackets and both quotes
rewritten to entities), the derived full_path is built from the escaped
title, and whenever the raw title contains one of the five special
characters the stored title differs from it. -/
theorem mkTOCEntry_escapes (doc_title section_id title : String)
    (page level : Int) (parent_id : Option String)
    (hdt : doc_title ≠ "") (ht : title ≠ "") :
    (mkTOCEntry doc_title section_id title page level parent_id "").title
        = htmlEscape title ∧
    (mkTOCEntry doc_title section_id title page level parent_id "").doc_title
        = htmlEscape doc_title ∧
    (mkTOCEntry doc_title section_id title page level parent_id "").full_path
        = (if section_id ≠ "" then
            section_id ++ " " ++ htmlEscape title else htmlEscape title) ∧
    (title.toList.any isHtmlSpecial = true →
      (mkTOCEntry doc_title section_id title page level parent_id "").title
        ≠ title) := by
  refine ⟨?_, ?_, ?_, ?_⟩
  · simp [mkTOCEntry, ht]
  · simp [mkTOCEntry, hdt]
  · simp [mkTOCEntry, ht]
  · intro hsp
    have h1 : (mkTOCEntry doc_title section_id title page level parent_id
        "").title = htmlEscape title := by simp [mkTOCEntry, ht]
    rw [h1]
    intro heq
    have hlen := htmlEscapeList_length_gt title.toList hsp
    have : (htmlEscape title).toList = title.toList := by rw [heq]
    have h2 : (htmlEscape title).toList = htmlEscapeList title.toList := rfl
    rw [h2] at this
    have h3 := congrArg List.length this
    omega

/-- Witness for C10 at a concrete input containing an ampersand. -/
theorem mkTOCEntry_escapes_witness :
    ("Power &amp; Delivery" : String) ≠ "" ∧
    (mkTOCEntry "Doc" "1.2" "Power & Delivery" 3 2 none "").title =
      "Power &amp; Delivery" := by
  constructor
  · decide
  · have h := mkTOCEntry_escapes "Doc" "1.2" "Power & Delivery" 3 2 none
      (by decide) (by decide)
    have h1 := h.1
    rw [h1]
    decide

theorem mem_numberedFilter {entries : List TOCEntry} {e : TOCEntry}
    (h : e ∈ numberedFilter entries) :
    ∃ a ∈ entries, isNumberedSection a = true ∧
      e = { a with parent_id := normalizeParent a.parent_id } := by
  rw [numberedFilter, List.mem_filterMap] at h
  obtain ⟨a, ha, hfa⟩ := h
  by_cases hn : isNumberedSection a = true
  · refine ⟨a, ha, hn, ?_⟩
    rw [if_pos hn] at hfa
    exact (Option.some.injEq _ _ ▸ hfa).symm
  · rw [if_neg hn] at hfa
    exact absurd hfa (by simp)

theorem normalizeParent_ne_some_empty (x : Option String) :
    normalizeParent x ≠ some "" := by
  match x with
  | none => simp [normalizeParent]
  | some p =>
    by_cases hp : p = "" <;> simp [normalizeParent, hp]

theorem numberedFilter_parent_ne_some_empty {entries : List TOCEntry}
    {e : TOCEntry} (h : e ∈ numberedFilter entries) :
    e.parent_id ≠ some "" := by
  obtain ⟨a, _, _, he⟩ := mem_numberedFilter h
  rw [he]
  exact normalizeParent_ne_some_empty a.parent_id

/-- C3 counterexample: a TOCEntry whose section_id is the two-character
string "1 newline" is retained by the numbered-section filter (Python
re.match with a dollar anchor also matches just before a trailing newline),
yet its section_id does not fully match the purely numeric dotted pattern. -/
theorem numberedFilter_newline_counterexample :
    (numberedFilter [⟨"d", "1\n", "T", 1, 1, none, ""⟩]).map
        (fun e => e.section_id) = ["1\n"] ∧
    fullyNumeric "1\n" = false := by
  constructor
  · decide
  · decide

/-- C3 amended: every entry in the numbered-section filter's output has a
non-empty section_id which either fully matches the purely numeric dotted
pattern, or does so after removing a single trailing newline (the latter
case arises because Python's dollar anchor in re.match also matches just
before a string-final newline). -/
theorem numberedFilter_purity (entries : List TOCEntry) :
    ∀ e ∈ numberedFilter entries,
      e.section_id ≠ "" ∧
      (fullyNumeric e.section_id = true ∨
        (e.section_id.toList.getLast? = some '\n' ∧
          fullyNumeric ⟨e.section_id.toList.dropLast⟩ = true)) := by
  intro e he
  obtain ⟨a, _, hn, he⟩ := mem_numberedFilter he
  have hsid : e.section_id = a.section_id := by rw [he]
  rw [isNumberedSection, Bool.and_eq_true] at hn
  obtain ⟨hne, hm⟩ := hn
  constructor
  · rw [hsid]
    simpa using hne
  · rw [hsid]
    rw [pyMatchSectionPattern, Bool.or_eq_true] at hm
    rcases hm with hm | hm
    · exact Or.inl hm
    · rw [Bool.and_eq_true] at hm
      refine Or.inr ⟨?_, hm.2⟩
      simpa using hm.1

/-- Witness for C3's amended theorem on a two-entry list: the entry
numbered 2.1 survives the filter with a fully numeric identifier. -/
theorem numberedFilter_purity_witness :
    (⟨"d", "2.1", "Scope", 4, 2, none, ""⟩ : TOCEntry) ∈
      numberedFilter [⟨"d", "", "Foreword", 1, 1, none, ""⟩,
                      ⟨"d", "2.1", "Scope", 4, 2, none, ""⟩] ∧
    ("2.1" : String) ≠ "" ∧ fullyNumeric "2.1" = true := by
  refine ⟨by decide, ?_, by decide⟩
  have h := numberedFilter_purity
    [⟨"d", "", "Foreword", 1, 1, none, ""⟩,
     ⟨"d", "2.1", "Scope", 4, 2, none, ""⟩]
    ⟨"d", "2.1", "Scope", 4, 2, none, ""⟩ (by decide)
  exact h.1

theorem splitP_ne_nil (p : Char → Bool) (l : List Char) : splitP p l ≠ [] := by
  cases l with
  | nil => simp [splitP]
  | cons c cs =>
    rw [splitP]
    split
    · simp
    · split <;> simp

theorem splitP_length (p : Char → Bool) (l : List Char) :
    (splitP p l).length = l.countP p + 1 := by
  induction l with
  | nil => simp [splitP]
  | cons c cs ih =>
    rw [splitP]
    by_cases hc : p c
    · rw [if_pos hc]
      simp [List.countP_cons, hc, ih]
    · rw [if_neg hc]
      have hne := splitP_ne_nil p cs
      match hsp : splitP p cs with
      | [] => exact absurd hsp hne
      | t :: ts =>
        rw [hsp] at ih
        simp only [List.length_cons] at ih ⊢
        simp [List.countP_cons, hc]
        omega

theorem dotCount_pos (s : String) : 1 ≤ dotCount s := by
  rw [dotCount, dotParts, splitChar, splitP_length]
  omega

theorem charIn_false_not_mem {c : Char} {s : String}
    (h : charIn c s = false) : c ∉ s.toList := by
  intro hmem
  rw [charIn] at h
  simp only [String.toList] at hmem
  simp [List.elem_iff.mpr hmem, List.contains] at h
  exact h hmem

theorem dotCount_eq_one_of_no_dot {s : String} (h : charIn '.' s = false) :
    dotCount s = 1 := by
  rw [dotCount, dotParts, splitChar, splitP_length]
  have hz : s.toList.countP (fun c => c == '.') = 0 := by
    rw [List.countP_eq_zero]
    intro a ha
    simp only [beq_iff_eq]
    intro hadot
    rw [hadot] at ha
    exact charIn_false_not_mem h ha
  omega

theorem contains_mem {l : List String} {a : String}
    (h : l.contains a = true) : a ∈ l :=
  List.elem_iff.mp (by simpa [List.contains] using h)

theorem fcpLoop_eq_some {sid : String} {ids : List String} {n : Nat}
    {c : String} (h : fcpLoop sid ids n = some c) :
    ∃ i, 1 ≤ i ∧ i ≤ n ∧ c = dotCand sid i ∧
      ids.contains (dotCand sid i) = true ∧
      ∀ j, i < j → j ≤ n → ids.contains (dotCand sid j) = false := by
  induction n with
  | zero => simp [fcpLoop] at h
  | succ m ih =>
    by_cases hc : ids.contains (dotCand sid (m + 1)) = true
    · simp only [fcpLoop, hc, if_true] at h
      refine ⟨m + 1, by omega, le_refl _, ?_, hc, ?_⟩
      · exact (Option.some.injEq _ _ ▸ h).symm
      · intro j hj1 hj2
        omega
    · have hc' : ids.contains (dotCand sid (m + 1)) = false := by
        simpa using hc
      simp only [fcpLoop, hc', Bool.false_eq_true, if_false] at h
      obtain ⟨i, h1, h2, h3, h4, h5⟩ := ih h
      refine ⟨i, h1, by omega, h3, h4, ?_⟩
      intro j hj1 hj2
      by_cases hjm : j ≤ m
      · exact h5 j hj1 hjm
      · have : j = m + 1 := by omega
        rw [this]
        exact hc'

theorem fcpLoop_eq_none {sid : String} {ids : List String} {n : Nat}
    (h : fcpLoop sid ids n = none) :
    ∀ j, 1 ≤ j → j ≤ n → ids.contains (dotCand sid j) = false := by
  induction n with
  | zero =>
    intro j h1 h2
    omega
  | succ m ih =>
    by_cases hc : ids.contains (dotCand sid (m + 1)) = true
    · simp only [fcpLoop, hc, if_true] at h
      exact absurd h (by simp)
    · have hc' : ids.contains (dotCand sid (m + 1)) = false := by
        simpa using hc
      simp only [fcpLoop, hc', Bool.false_eq_true, if_false] at h
      intro j hj1 hj2
      by_cases hjm : j ≤ m
      · exact ih h j hj1 hjm
      · have : j = m + 1 := by omega
        rw [this]
        exact hc'

theorem findClosestParent_cases (sid : String) (ids : List String) :
    (findClosestParent sid ids = none ∧
      ∀ j, 1 ≤ j → j < dotCount sid →
        ids.contains (dotCand sid j) = false) ∨
    (∃ i, 1 ≤ i ∧ i < dotCount sid ∧
      findClosestParent sid ids = some (dotCand sid i) ∧
      ids.contains (dotCand sid i) = true ∧
      ∀ j, i < j → j < dotCount sid →
        ids.contains (dotCand sid j) = false) := by
  rw [findClosestParent]
  split
  · left
    refine ⟨rfl, ?_⟩
    intro j h1 h2
    rename_i hguard
    rw [Bool.or_eq_true] at hguard
    rcases hguard with hg | hg
    · have hsid : sid = "" := by simpa using hg
      rw [hsid] at h2
      have : dotCount "" = 1 := by decide
      omega
    · have hc : charIn '.' sid = false := by simpa using hg
      have := dotCount_eq_one_of_no_dot hc
      omega
  · have hk := dotCount_pos sid
    cases hr : fcpLoop sid ids (dotCount sid - 1) with
    | none =>
      left
      refine ⟨rfl, ?_⟩
      intro j h1 h2
      exact fcpLoop_eq_none hr j h1 (by omega)
    | some c =>
      right
      obtain ⟨i, h1, h2, h3, h4, h5⟩ := fcpLoop_eq_some hr
      refine ⟨i, h1, by omega, ?_, h4, ?_⟩
      · rw [h3]
      · intro j hj1 hj2
        exact h5 j hj1 (by omega)

theorem repairEntry_section_id (ids : List String) (e : TOCEntry) :
    (repairEntry ids e).section_id = e.section_id := by
  cases hp : e.parent_id with
  | none => simp [repairEntry, hp]
  | some p =>
    simp only [repairEntry, hp]
    split <;> rfl

theorem repairEntry_parent_none {ids : List String} {e : TOCEntry}
    (hp : e.parent_id = none) : (repairEntry ids e).parent_id = none := by
  simp [repairEntry, hp]

theorem repairEntry_parent_absent {ids : List String} {e : TOCEntry}
    {p : String} (hp : e.parent_id = some p) (hne : p ≠ "")
    (habs : ids.contains p = false) :
    (repairEntry ids e).parent_id = findClosestParent e.section_id ids := by
  simp only [repairEntry, hp]
  rw [if_pos ⟨hne, habs⟩]

theorem repairEntry_parent_kept {ids : List String} {e : TOCEntry}
    {p : String} (hp : e.parent_id = some p)
    (hcond : ¬(p ≠ "" ∧ ids.contains p = false)) :
    (repairEntry ids e).parent_id = some p := by
  simp only [repairEntry, hp]
  rw [if_neg hcond]
  exact hp

theorem ensure_ids (l : List TOCEntry) :
    (ensureHierarchyConsistency l).map (fun e => e.section_id)
      = l.map (fun e => e.section_id) := by
  simp only [ensureHierarchyConsistency, List.map_map]
  apply List.map_congr_left
  intro a _
  exact repairEntry_section_id _ a

/-- C4: after SectionFilter.filter_numbered_sections (the numbered filter
followed by the hierarchy-consistency repair) every non-null parent_id
refers to a section_id present in the batch; and for every filtered entry
whose pre-repair parent_id is absent from the batch, the repaired parent_id
is the longest proper dotted-prefix of the entry's own section_id that is
present in the batch (longer prefixes tried first), or null when no such
prefix is present. -/
theorem filterNumberedSections_consistency (entries : List TOCEntry) :
    (∀ e ∈ filterNumberedSections entries, ∀ p, e.parent_id = some p →
        p ∈ (filterNumberedSections entries).map (fun x => x.section_id)) ∧
    (∀ e ∈ numberedFilter entries, ∀ p, e.parent_id = some p →
        ((numberedFilter entries).map (fun x => x.section_id)).contains p
            = false →
        (((repairEntry ((numberedFilter entries).map (fun x => x.section_id))
              e).parent_id = none ∧
            ∀ j, 1 ≤ j → j < dotCount e.section_id →
              ((numberedFilter entries).map
                (fun x => x.section_id)).contains (dotCand e.section_id j)
                  = false) ∨
          (∃ i, 1 ≤ i ∧ i < dotCount e.section_id ∧
            (repairEntry ((numberedFilter entries).map
              (fun x => x.section_id)) e).parent_id
                = some (dotCand e.section_id i) ∧
            ((numberedFilter entries).map
              (fun x => x.section_id)).contains (dotCand e.section_id i)
                = true ∧
            ∀ j, i < j → j < dotCount e.section_id →
              ((numberedFilter entries).map
                (fun x => x.section_id)).contains (dotCand e.section_id j)
                  = false))) := by
  constructor
  · intro e' he' p hp
    by_cases hemp : entries.isEmpty
    · simp [filterNumberedSections, hemp] at he'
    · simp only [filterNumberedSections, hemp, Bool.false_eq_true,
        if_false] at he' ⊢
      simp only [ensureHierarchyConsistency, List.mem_map] at he'
      obtain ⟨a, ha, hrep⟩ := he'
      rw [ensure_ids]
      cases hap : a.parent_id with
      | none =>
        rw [← hrep] at hp
        rw [repairEntry_parent_none hap] at hp
        exact absurd hp (by simp)
      | some q =>
        by_cases hcond : q ≠ "" ∧
            ((numberedFilter entries).map (fun x => x.section_id)).contains q
              = false
        · rw [← hrep] at hp
          rw [repairEntry_parent_absent hap hcond.1 hcond.2] at hp
          rcases findClosestParent_cases a.section_id
              ((numberedFilter entries).map (fun x => x.section_id)) with
            hcase | ⟨i, _, _, heq, hcont, _⟩
          · rw [hcase.1] at hp
            exact absurd hp (by simp)
          · rw [heq] at hp
            have hpc : p = dotCand a.section_id i :=
              (Option.some.injEq _ _ ▸ hp.symm)
            rw [hpc]
            exact contains_mem hcont
        · rw [← hrep] at hp
          rw [repairEntry_parent_kept hap hcond] at hp
          have hpq : p = q := (Option.some.injEq _ _ ▸ hp.symm)
          have hq_ne : q ≠ "" := by
            intro hq
            apply numberedFilter_parent_ne_some_empty ha
            rw [hap, hq]
          rcases not_and_or.mp hcond with hbad | hcq
          · exact absurd hq_ne hbad
          · have : ((numberedFilter entries).map
                (fun x => x.section_id)).contains q = true := by
              simpa using hcq
            rw [hpq]
            exact contains_mem this
  · intro e he p hp habs
    have hpne : p ≠ "" := by
      intro hq
      apply numberedFilter_parent_ne_some_empty he
      rw [hp, hq]
    have hrep : (repairEntry ((numberedFilter entries).map
        (fun x => x.section_id)) e).parent_id =
        findClosestParent e.section_id
          ((numberedFilter entries).map (fun x => x.section_id)) :=
      repairEntry_parent_absent hp hpne habs
    rcases findClosestParent_cases e.section_id
        ((numberedFilter entries).map (fun x => x.section_id)) with
      ⟨hnone, hall⟩ | ⟨i, h1, h2, heq, hcont, hmax⟩
    · left
      exact ⟨by rw [hrep, hnone], hall⟩
    · right
      exact ⟨i, h1, h2, by rw [hrep, heq], hcont, hmax⟩

/-- Witness for C4: in the concrete batch [3, 3.2.1 with dangling parent 7]
the repaired deep entry points at the present ancestor 3, which indeed
occurs among the batch section identifiers. -/
theorem filterNumberedSections_consistency_witness :
    ("3" : String) ∈ (filterNumberedSections
      [⟨"d", "3", "Three", 1, 1, none, ""⟩,
       ⟨"d", "3.2.1", "Deep", 2, 3, some "7", ""⟩]).map
        (fun x => x.section_id) := by
  have h := (filterNumberedSections_consistency
    [⟨"d", "3", "Three", 1, 1, none, ""⟩,
     ⟨"d", "3.2.1", "Deep", 2, 3, some "7", ""⟩]).1
  exact h ⟨"d", "3.2.1", "Deep", 2, 3, some "3", ""⟩ (by decide) "3" (by decide)

theorem calcHierarchyAux_level (dt : String) (es : List RawEntry) :
    ∀ (stack : List String), ∀ e ∈ calcHierarchyAux dt stack es,
      e.level = dotCount e.section_id := by
  induction es with
  | nil =>
    intro stack e he
    simp [calcHierarchyAux] at he
  | cons r rest ih =>
    intro stack e he
    by_cases hr : r.section_id = ""
    · rw [calcHierarchyAux, if_pos hr] at he
      exact ih stack e he
    · rw [calcHierarchyAux, if_neg hr] at he
      rcases List.mem_cons.mp he with he1 | he2
      · rw [he1]
      · exact ih _ e he2

theorem calcHierarchyAux_parent (dt : String) (es : List RawEntry) :
    ∀ (stack : List String),
      (∀ j s, stack[j]? = some s → dotCount s = j + 1) →
      chainFromB stack.length (retainedDepths es) = true →
      ∀ e ∈ calcHierarchyAux dt stack es, ∀ p, e.parent_id = some p →
        dotCount p + 1 = dotCount e.section_id := by
  induction es with
  | nil =>
    intro stack _ _ e he
    simp [calcHierarchyAux] at he
  | cons r rest ih =>
    intro stack hstack hchain e he p hp
    by_cases hr : r.section_id = ""
    · have hdep : retainedDepths (r :: rest) = retainedDepths rest := by
        simp [retainedDepths, hr]
      rw [hdep] at hchain
      rw [calcHierarchyAux, if_pos hr] at he
      exact ih stack hstack hchain e he p hp
    · have hdep : retainedDepths (r :: rest)
          = dotCount r.section_id :: retainedDepths rest := by
        simp [retainedDepths, hr]
      rw [hdep] at hchain
      have hdpos : 1 ≤ dotCount r.section_id := dotCount_pos _
      by_cases hle : dotCount r.section_id ≤ stack.length + 1
      · rw [chainFromB, if_pos hle] at hchain
        rw [calcHierarchyAux, if_neg hr] at he
        have hlen_take : (stack.take (dotCount r.section_id - 1)).length
            = dotCount r.section_id - 1 := by
          rw [List.length_take]
          omega
        rcases List.mem_cons.mp he with he1 | he2
        · rw [he1] at hp ⊢
          simp only at hp ⊢
          rw [List.getLast?_eq_getElem? (stack.take (dotCount r.section_id - 1)),
            hlen_take] at hp
          by_cases hd1 : dotCount r.section_id = 1
          · rw [hd1] at hp
            simp at hp
          · have hd2 : 2 ≤ dotCount r.section_id := by omega
            rw [List.getElem?_take] at hp
            rw [if_pos (by omega)] at hp
            have := hstack _ _ hp
            omega
        · apply ih (stack.take (dotCount r.section_id - 1) ++ [r.section_id])
            ?_ ?_ e he2 p hp
          · intro j s hjs
            rw [List.getElem?_append] at hjs
            by_cases hj : j < (stack.take (dotCount r.section_id - 1)).length
            · rw [if_pos hj] at hjs
              rw [List.getElem?_take] at hjs
              rw [hlen_take] at hj
              rw [if_pos hj] at hjs
              exact hstack _ _ hjs
            · rw [if_neg hj] at hjs
              rw [hlen_take] at hj
              have hlt : j - (dotCount r.section_id - 1) < 1 := by
                by_contra hge
                rw [List.getElem?_eq_none (by simp; omega)] at hjs
                exact absurd hjs (by simp)
              have hj' : j = dotCount r.section_id - 1 := by omega
              rw [hj'] at hjs ⊢
              simp only [hlen_take] at hjs
              have : j - (dotCount r.section_id - 1) = 0 := by omega
              rw [hj'] at this
              rw [this] at hjs
              simp at hjs
              rw [← hjs]
              omega
          · rw [List.length_append, hlen_take]
            simpa [Nat.sub_add_cancel hdpos] using hchain
      · rw [chainFromB, if_neg hle] at hchain
        exact absurd hchain (by simp)

/-- C2 counterexample: on the input [1, 1.1.1] the hierarchy calculation
assigns the entry 1.1.1 level 3 and parent 1, while the parent entry 1 has
level 1, which is not the entry's level minus one. -/
theorem calcHierarchy_level_gap_counterexample :
    ((calcHierarchy "d" [⟨"1", "A", 1⟩, ⟨"1.1.1", "B", 2⟩]).map
      (fun e => (e.section_id, e.level, e.parent_id)))
      = [("1", 1, none), ("1.1.1", 3, some "1")] ∧ ¬ (1 + 1 = 3) := by
  constructor
  · rfl
  · decide

/-- C2 amended: every entry retained by USBPDParser._calculate_hierarchy has
level equal to the number of dot-separated components of its section_id;
and when the retained depth sequence is gap-free (its first depth is 1 and
each depth exceeds its predecessor by at most one), every retained entry
with a non-null parent_id has: any retained entry carrying the parent
section_id a level exactly one less than the entry's level. -/
theorem calcHierarchy_invariant (dt : String) (es : List RawEntry) :
    (∀ e ∈ calcHierarchy dt es, e.level = dotCount e.section_id) ∧
    (chainFromB 0 (retainedDepths es) = true →
      ∀ e ∈ calcHierarchy dt es, ∀ p, e.parent_id = some p →
        ∀ pe ∈ calcHierarchy dt es, pe.section_id = p →
          pe.level + 1 = e.level) := by
  constructor
  · exact calcHierarchyAux_level dt es []
  · intro hchain e he p hp pe hpe hpep
    have hkey := calcHierarchyAux_parent dt es []
      (by intro j s hjs; simp at hjs) (by simpa using hchain) e he p hp
    have hlev_e := calcHierarchyAux_level dt es [] e he
    have hlev_pe := calcHierarchyAux_level dt es [] pe hpe
    rw [hlev_e, hlev_pe, hpep]
    omega

/-- Witness for C2's amended theorem on the gap-free input [1, 1.1]:
the retained entry 1.1 has parent 1 and the entry 1 has level one less. -/
theorem calcHierarchy_invariant_witness :
    chainFromB 0 (retainedDepths [⟨"1", "A", 1⟩, ⟨"1.1", "B", 2⟩]) = true ∧
    (⟨"d", "1", "A", 1, 1, none, "1 A"⟩ : ProcEntry).level + 1
      = (⟨"d", "1.1", "B", 2, 2, some "1", "1.1 B"⟩ : ProcEntry).level := by
  refine ⟨by decide, ?_⟩
  exact (calcHierarchy_invariant "d" [⟨"1", "A", 1⟩, ⟨"1.1", "B", 2⟩]).2
    (by decide)
    ⟨"d", "1.1", "B", 2, 2, some "1", "1.1 B"⟩ (by decide)
    "1" (by decide)
    ⟨"d", "1", "A", 1, 1, none, "1 A"⟩ (by decide)
    (by decide)

theorem findPeerPage_eq_find? (lvl : Int) (l : List TOCEntry) :
    findPeerPage lvl l
      = (l.find? (fun x => decide (x.level ≤ lvl))).map (fun x => x.page) := by
  induction l with
  | nil => rfl
  | cons x xs ih =>
    by_cases h : x.level ≤ lvl
    · rw [findPeerPage, if_pos h, List.find?_cons_of_pos _ (by simpa using h)]
      rfl
    · rw [findPeerPage, if_neg h, List.find?_cons_of_neg _ (by simpa using h),
        ih]

theorem endBase_eq (pc : Int) (entry : TOCEntry) (all : List TOCEntry)
    (index : Nat) (hpage : 1 ≤ entry.page) :
    pageRangeEndBase pc entry all index = specEndBase pc entry all index := by
  have hstart : max 1 entry.page = entry.page := max_eq_right hpage
  by_cases hidx : index + 1 < all.length
  · rw [pageRangeEndBase, if_pos hidx, specEndBase]
    have hdrop : all.drop (index + 1)
        = all[index + 1] :: all.drop (index + 2) :=
      List.drop_eq_getElem_cons hidx
    have hgetD : all.getD (index + 1) default = all[index + 1] := by
      rw [List.getD_eq_getElem?_getD, List.getElem?_eq_getElem hidx]
      rfl
    rw [hdrop, hgetD]
    by_cases hlev : all[index + 1].level ≤ entry.level
    · rw [if_pos hlev, List.find?_cons_of_pos _ (by simpa using hlev)]
    · rw [if_neg hlev, List.find?_cons_of_neg _ (by simpa using hlev)]
      rw [findSectionEnd, hdrop, findPeerPage, if_neg hlev,
        findPeerPage_eq_find?]
      cases hf : (all.drop (index + 2)).find?
          (fun x => decide (x.level ≤ entry.level)) with
      | some b =>
        simp only [Option.map_some']
        rw [hstart]
      | none =>
        simp only [Option.map_none']
        rw [if_pos hidx, hstart]
  · rw [pageRangeEndBase, if_neg hidx, specEndBase]
    have hdrop : all.drop (index + 1) = [] :=
      List.drop_eq_nil_of_le (by omega)
    rw [hdrop]
    simp only [List.find?_nil]
    rw [if_neg hidx]

/-- C1 counterexample: on the spec's own 8-page example the entry 1.1 at
index 1 resolves to the range (2, 5) because the minimum-coverage rule
widens a short level-2 section, not to the claimed (2, 3). -/
theorem pageRange_example_counterexample :
    getPageRange 8 (exampleEntries.getD 1 default) exampleEntries 1 = (2, 5)
      ∧ ((2, 5) : Int × Int) ≠ (2, 3) := by
  constructor
  · rfl
  · decide

/-- C1 amended: for entries whose page numbers are at least 1, the resolved
range starts at max(1, page); the end is (first later entry of level at
most the current level).page - 1 clamped below by the start when such an
entry exists, min(start + 10, page count) for a non-final entry without
one, and max(start, page count) for the last entry; afterwards an entry of
level at most 2 with a range shorter than two pages is widened to
min(start + 3, page count). On the spec's 8-page example this yields
1 to 1-5, 1.1 to 2-5, 1.2 to 4-7 and 2 to 6-8. -/
theorem pageRange_resolution :
    (∀ (pc : Int) (entry : TOCEntry) (all : List TOCEntry) (index : Nat),
      1 ≤ entry.page →
      getPageRange pc entry all index = specResolvedRange pc entry all index)
    ∧ (List.range 4).map (fun i =>
        getPageRange 8 (exampleEntries.getD i default) exampleEntries i)
      = [(1, 5), (2, 5), (4, 7), (6, 8)] := by
  constructor
  · intro pc entry all index hpage
    rw [getPageRange, specResolvedRange, endBase_eq pc entry all index hpage]
  · rfl

/-- Witness for C1's amended theorem: the code's resolver and the amended
claim's resolver agree at the last entry of the example. -/
theorem pageRange_resolution_witness :
    getPageRange 8 (exampleEntries.getD 3 default) exampleEntries 3
      = specResolvedRange 8 (exampleEntries.getD 3 default) exampleEntries 3 :=
  pageRange_resolution.1 8 (exampleEntries.getD 3 default) exampleEntries 3
    (by decide)

/-- C7 counterexample: with a level-3 entry on page 0 bounded by a later
level-3 entry on page 0, the resolver returns the range (1, 0): the start
exceeds the end, and the computed end stayed below the start instead of
collapsing to it. -/
theorem getPageRange_clamp_counterexample :
    getPageRange 8 ⟨"d", "A", "t", 0, 3, none, ""⟩
      [⟨"d", "A", "t", 0, 3, none, ""⟩, ⟨"d", "B", "t", 5, 4, none, ""⟩,
       ⟨"d", "C", "t", 0, 3, none, ""⟩] 0 = (1, 0) ∧ ¬ ((1 : Int) ≤ 0) := by
  constructor
  · rfl
  · decide

theorem pageRangeEndBase_ge (pc : Int) (entry : TOCEntry)
    (all : List TOCEntry) (index : Nat) (h1 : 1 ≤ entry.page)
    (h2 : entry.page ≤ pc) :
    max 1 entry.page ≤ pageRangeEndBase pc entry all index := by
  have hstart : max 1 entry.page = entry.page := max_eq_right h1
  rw [pageRangeEndBase]
  split
  · split
    · exact le_max_left _ _
    · rw [findSectionEnd]
      cases hfp : findPeerPage entry.level (all.drop (index + 1)) with
      | some pg =>
        rw [hstart]
        exact le_max_left _ _
      | none =>
        rw [hstart]
        exact le_min (by omega) h2
  · exact le_max_left _ _

/-- C7 amended: whenever the entry's page lies between 1 and the page
count, the resolved range satisfies start at most end. (As the
counterexample shows, the original claim's unconditional bound and its
collapse of short ranges to a single page both fail: the minimum-coverage
rule widens short low-level sections instead.) -/
theorem getPageRange_clamp (pc : Int) (entry : TOCEntry)
    (all : List TOCEntry) (index : Nat) (h1 : 1 ≤ entry.page)
    (h2 : entry.page ≤ pc) :
    (getPageRange pc entry all index).1 ≤ (getPageRange pc entry all index).2 := by
  have hstart : max 1 entry.page = entry.page := max_eq_right h1
  rw [getPageRange]
  simp only
  split
  · rw [hstart]
    exact le_min (by omega) h2
  · exact pageRangeEndBase_ge pc entry all index h1 h2

/-- Witness for C7's amended theorem at the first example entry. -/
theorem getPageRange_clamp_witness :
    (getPageRange 8 (exampleEntries.getD 0 default) exampleEntries 0).1
      ≤ (getPageRange 8 (exampleEntries.getD 0 default) exampleEntries 0).2 :=
  getPageRange_clamp 8 (exampleEntries.getD 0 default) exampleEntries 0
    (by decide) (by decide)

/-- C8 counterexample: the content string of one-letter words a b yields
word_count 0 (the regex only counts word runs of length at least two),
while its whitespace-delimited token count is 2. -/
theorem word_count_counterexample :
    (mkContentEntry DOC_TITLE "1" "t" "1-1" "a b" [] []).word_count = 0 ∧
    pyWhitespaceTokenCount "a b" = 2 ∧ (0 : Nat) ≠ 2 := by
  refine ⟨by decide, by decide, by decide⟩

/-- C8 amended: the derived word_count of every constructed ContentEntry
equals the number of maximal word-character runs of length at least two in
the content (the match count of the pre-compiled regex), and it is 0 when
the content is empty. -/
theorem mkContentEntry_word_count (dt sid t pr c : String)
    (imgs : List ImageRec) (tbls : List TableRec) :
    (mkContentEntry dt sid t pr c imgs tbls).word_count
        = efficientWordCount c ∧
    (c = "" → (mkContentEntry dt sid t pr c imgs tbls).word_count = 0) := by
  by_cases hc : c = ""
  · subst hc
    constructor
    · simp only [mkContentEntry, ne_eq, not_true_eq_false, if_false,
        reduceIte]
      decide
    · intro _
      simp [mkContentEntry]
  · constructor
    · simp [mkContentEntry, hc]
    · intro h
      exact absurd h hc

/-- Witness for C8's amended theorem: a two-word content and an empty
content evaluated concretely. -/
theorem mkContentEntry_word_count_witness :
    (mkContentEntry DOC_TITLE "1" "t" "1-2" "ab cd" [] []).word_count = 2 ∧
    (mkContentEntry DOC_TITLE "1" "t" "1-2" "" [] []).word_count = 0 := by
  constructor
  · have h := (mkContentEntry_word_count DOC_TITLE "1" "t" "1-2" "ab cd"
      [] []).1
    rw [h]
    decide
  · exact (mkContentEntry_word_count DOC_TITLE "1" "t" "1-2" "" [] []).2 rfl

theorem filterMap_if_map {α β : Type} (g : α → β) (p : α → Prop)
    [DecidablePred p] (l : List α) (h : ∀ x ∈ l, p x) :
    (l.filterMap (fun x => if p x then some (g x) else none)) = l.map g := by
  induction l with
  | nil => rfl
  | cons x xs ih =>
    have hx : (if p x then some (g x) else none) = some (g x) :=
      if_pos (h x (List.mem_cons_self x xs))
    simp only [List.filterMap_cons, hx, List.map_cons]
    rw [ih (fun y hy => h y (List.mem_cons_of_mem x hy))]

theorem mkContentEntry_section_id (dt sid t pr c : String)
    (imgs : List ImageRec) (tbls : List TableRec) :
    (mkContentEntry dt sid t pr c imgs tbls).section_id = sid := by
  by_cases hc : c = "" <;> simp [mkContentEntry, hc]

theorem mkContentEntry_empty (dt sid t pr : String)
    (imgs : List ImageRec) (tbls : List TableRec) :
    (mkContentEntry dt sid t pr "" imgs tbls).has_content = false ∧
    (mkContentEntry dt sid t pr "" imgs tbls).content = "" := by
  simp [mkContentEntry]

theorem truncateContent_empty : truncateContent "" = "" := by decide

/-- C6 counterexample: over a one-page document whose page text is empty,
the extracted Content Entry carries the empty string as content rather than
any placeholder string (and has_content is false). -/
theorem extract_empty_content_counterexample :
    ((extract ⟨[""], [[]], [[]]⟩ [⟨"d", "1", "T", 1, 1, none, ""⟩]).map
      (fun c => (c.content, c.has_content))) = [("", false)] ∧
    ¬ (("" : String) ≠ "") := by
  constructor
  · rfl
  · decide

/-- C6 amended: for a list of retained entries (all section identifiers
strip to a non-empty string) content extraction produces exactly one
Content Entry per entry in input order, each carrying the entry's
section_id, and an entry whose page range yields no extractable text still
yields its Content Entry, with has_content false and empty content, never
being omitted. -/
theorem extract_row_correspondence (d : Doc) (entries : List TOCEntry)
    (hids : ∀ e ∈ entries, pyStrip e.section_id ≠ "") :
    extract d entries
        = entries.enum.map (fun ie => extractSingle d ie.2 entries ie.1) ∧
    (extract d entries).length = entries.length ∧
    (∀ ie ∈ entries.enum,
      (extractSingle d ie.2 entries ie.1).section_id = ie.2.section_id ∧
      (extractText d (getPageRange ((pageCount d : Int)) ie.2 entries ie.1).1
          (getPageRange ((pageCount d : Int)) ie.2 entries ie.1).2 = "" →
        (extractSingle d ie.2 entries ie.1).has_content = false ∧
        (extractSingle d ie.2 entries ie.1).content = "")) := by
  have hmain : extract d entries
      = entries.enum.map (fun ie => extractSingle d ie.2 entries ie.1) := by
    rw [extract]
    by_cases hemp : entries.isEmpty
    · rw [if_pos hemp]
      have hnil : entries = [] := List.isEmpty_iff.mp hemp
      subst hnil
      rfl
    · rw [if_neg hemp]
      split
      · rfl
      · rw [extractSequential]
        apply filterMap_if_map
        intro ie hie
        obtain ⟨i, e⟩ := ie
        obtain ⟨hi, hei⟩ := List.mem_enum hie
        have hmem : e ∈ entries := by
          rw [hei]
          exact entries.getElem_mem hi
        have hstrip := hids e hmem
        refine ⟨?_, hstrip⟩
        intro hsid
        apply hstrip
        rw [hsid]
        rfl
  refine ⟨hmain, ?_, ?_⟩
  · rw [hmain]
    simp
  · intro ie hie
    constructor
    · simp only [extractSingle]
      exact mkContentEntry_section_id _ _ _ _ _ _ _
    · intro htxt
      simp only [extractSingle]
      rw [htxt, truncateContent_empty]
      exact mkContentEntry_empty _ _ _ _ _ _

/-- Witness for C6's amended theorem on a one-entry batch over a one-page
document with text. -/
theorem extract_row_correspondence_witness :
    (extract ⟨["hello world"], [[]], [[]]⟩
      [⟨"d", "1", "T", 1, 1, none, ""⟩]).length = 1 := by
  have h := (extract_row_correspondence ⟨["hello world"], [[]], [[]]⟩
    [⟨"d", "1", "T", 1, 1, none, ""⟩] (by decide)).2.1
  rw [h]
  rfl

/-- C9: path validation returns an error (so no file is opened) whenever
the sanitised filename is an absolute path, contains a parent-directory
marker dot-dot, or contains a path separator; and every accepted filename
resolves to the base directory extended by exactly one component that is
non-empty, separator-free and free of dot-dot, hence to a path lying
strictly inside the base directory. -/
theorem validateAndResolve_safety (filename : String) (base : List String) :
    (((cleanNameOf filename).toList.head? = some '/' ∨
        strIn ".." (cleanNameOf filename) = true ∨
        charIn '/' (cleanNameOf filename) = true ∨
        charIn '\\' (cleanNameOf filename) = true) →
      ∃ msg, validateAndResolve filename base = Except.error msg) ∧
    (∀ p, validateAndResolve filename base = Except.ok p →
      base <+: p ∧
      ∃ name, p = base ++ [name] ∧ name ≠ "" ∧
        strIn ".." name = false ∧ charIn '/' name = false ∧
        charIn '\\' name = false ∧ name.toList.head? ≠ some '/') := by
  by_cases h0 : filename = ""
  · constructor
    · intro _
      exact ⟨_, by rw [validateAndResolve, if_pos h0]⟩
    · intro p hp
      rw [validateAndResolve, if_pos h0] at hp
      exact absurd hp (by simp)
  · by_cases h1 : cleanNameOf filename = ""
    · constructor
      · intro _
        exact ⟨_, by rw [validateAndResolve, if_neg h0, if_pos h1]⟩
      · intro p hp
        rw [validateAndResolve, if_neg h0, if_pos h1] at hp
        exact absurd hp (by simp)
    · by_cases h2 : (cleanNameOf filename).toList.head? = some '/'
      · constructor
        · intro _
          exact ⟨_, by rw [validateAndResolve, if_neg h0, if_neg h1,
            if_pos h2]⟩
        · intro p hp
          rw [validateAndResolve, if_neg h0, if_neg h1, if_pos h2] at hp
          exact absurd hp (by simp)
      · by_cases h3 : strIn ".." (cleanNameOf filename) = true ∨
            charIn '/' (cleanNameOf filename) = true ∨
            charIn '\\' (cleanNameOf filename) = true
        · constructor
          · intro _
            exact ⟨_, by rw [validateAndResolve, if_neg h0, if_neg h1,
              if_neg h2, if_pos h3]⟩
          · intro p hp
            rw [validateAndResolve, if_neg h0, if_neg h1, if_neg h2,
              if_pos h3] at hp
            exact absurd hp (by simp)
        · by_cases h4 : posixName (cleanNameOf filename) = "" ∨
              posixName (cleanNameOf filename) = "." ∨
              posixName (cleanNameOf filename) = ".." ∨
              charIn '/' (posixName (cleanNameOf filename)) = true ∨
              charIn '\\' (posixName (cleanNameOf filename)) = true
          · constructor
            · intro _
              exact ⟨_, by rw [validateAndResolve, if_neg h0, if_neg h1,
                if_neg h2, if_neg h3, if_pos h4]⟩
            · intro p hp
              rw [validateAndResolve, if_neg h0, if_neg h1, if_neg h2,
                if_neg h3, if_pos h4] at hp
              exact absurd hp (by simp)
          · constructor
            · intro hbad
              rcases hbad with hb | hb | hb | hb
              · exact absurd hb h2
              · exact absurd (Or.inl hb) h3
              · exact absurd (Or.inr (Or.inl hb)) h3
              · exact absurd (Or.inr (Or.inr hb)) h3
            · intro p hp
              rw [validateAndResolve, if_neg h0, if_neg h1, if_neg h2,
                if_neg h3, if_neg h4] at hp
              have hpe : p = base ++ [posixName (cleanNameOf filename)] :=
                (Except.ok.injEq _ _ ▸ hp).symm
              have hclean : posixName (cleanNameOf filename)
                  = cleanNameOf filename := by
                rw [posixName]
                rw [if_neg ?_]
                intro hdot
                apply h4
                left
                rw [posixName, if_pos hdot]
              refine ⟨hpe ▸ ⟨[posixName (cleanNameOf filename)], rfl⟩,
                posixName (cleanNameOf filename), hpe, ?_, ?_, ?_, ?_, ?_⟩
              · intro hne
                exact h4 (Or.inl hne)
              · rw [hclean]
                cases hs : strIn ".." (cleanNameOf filename) with
                | false => rfl
                | true => exact absurd (Or.inl hs) h3
              · rw [hclean]
                cases hs : charIn '/' (cleanNameOf filename) with
                | false => rfl
                | true => exact absurd (Or.inr (Or.inl hs)) h3
              · rw [hclean]
                cases hs : charIn '\\' (cleanNameOf filename) with
                | false => rfl
                | true => exact absurd (Or.inr (Or.inr hs)) h3
              · rw [hclean]
                exact h2

/-- Witness for C9: a traversal attempt is rejected and a plain output
filename is accepted into the working directory. -/
theorem validateAndResolve_safety_witness :
    (∃ msg, validateAndResolve "../secret" ["wd"] = Except.error msg) ∧
    ((["wd"] : List String) <+: ["wd", "usb_pd_toc.jsonl"] ∧
      ∃ name, (["wd", "usb_pd_toc.jsonl"] : List String) = ["wd"] ++ [name] ∧
        name ≠ "" ∧ strIn ".." name = false ∧ charIn '/' name = false ∧
        charIn '\\' name = false ∧ name.toList.head? ≠ some '/') := by
  constructor
  · exact (validateAndResolve_safety "../secret" ["wd"]).1
      (Or.inr (Or.inl (by decide)))
  · exact (validateAndResolve_safety "usb_pd_toc.jsonl" ["wd"]).2
      ["wd", "usb_pd_toc.jsonl"] (by rfl)

theorem lookupD_dictInsert (k : String) (v : Nat) (d : List (String × Nat))
    (k' : String) :
    lookupD (dictInsert k v d) k'
      = if k' = k then some v else lookupD d k' := by
  induction d with
  | nil =>
    simp only [dictInsert, lookupD]
    by_cases hk : k' = k
    · rw [if_pos hk.symm, if_pos hk]
    · rw [if_neg (fun h => hk h.symm), if_neg hk]
  | cons x rest ih =>
    simp only [dictInsert]
    by_cases hx : x.1 = k
    · rw [if_pos hx]
      simp only [lookupD]
      by_cases hk : k' = k
      · rw [if_pos hk.symm, if_pos hk]
      · rw [if_neg (fun h => hk h.symm), if_neg hk,
          if_neg (fun h => hk (hx.symm.trans h).symm)]
    · rw [if_neg hx]
      simp only [lookupD]
      by_cases hxk : x.1 = k'
      · rw [if_pos hxk, if_pos hxk, if_neg (fun h => hx (hxk.trans h))]
      · rw [if_neg hxk, if_neg hxk, ih]

theorem getD_append_lt {l l' : List IdxRow} {i : Nat} (h : i < l.length) :
    (l ++ l').getD i default = l.getD i default := by
  rw [List.getD_eq_getElem?_getD, List.getD_eq_getElem?_getD,
    List.getElem?_append, if_pos h]

theorem getD_append_len {l : List IdxRow} {r : IdxRow} :
    (l ++ [r]).getD l.length default = r := by
  rw [List.getD_eq_getElem?_getD, List.getElem?_append,
    if_neg (by omega)]
  simp

theorem indexEntry_entries (st : SIndex) (e : IdxRow) (i : Nat) :
    (indexEntry st e i).entries = st.entries := by
  simp only [indexEntry]
  split <;> rfl

theorem indexEntry_section_index (st : SIndex) (e : IdxRow) (i : Nat) :
    (indexEntry st e i).section_index
      = if e.section_id ≠ "" then dictInsert e.section_id i st.section_index
        else st.section_index := by
  simp only [indexEntry]
  split <;> rfl

theorem buildFold_spec (rows : List IdxRow) :
    ∀ (st : SIndex) (c : Nat),
      st.entries.length = c →
      c + rows.length ≤ 10000 →
      (∀ k i, lookupD st.section_index k = some i →
        i < c ∧ (st.entries.getD i default).section_id = k) →
      ((rows.foldl (fun sc r => processLine sc.1 sc.2 r) (st, c)).1.entries
          = st.entries ++ rows) ∧
      ((rows.foldl (fun sc r => processLine sc.1 sc.2 r) (st, c)).2
          = c + rows.length) ∧
      (∀ k i,
        lookupD (rows.foldl (fun sc r => processLine sc.1 sc.2 r)
            (st, c)).1.section_index k = some i →
        i < c + rows.length ∧
        ((rows.foldl (fun sc r => processLine sc.1 sc.2 r)
            (st, c)).1.entries.getD i default).section_id = k) ∧
      (∀ k, k ≠ "" →
        ((lookupD st.section_index k).isSome ∨ ∃ r ∈ rows, r.section_id = k) →
        (lookupD (rows.foldl (fun sc r => processLine sc.1 sc.2 r)
            (st, c)).1.section_index k).isSome) := by
  induction rows with
  | nil =>
    intro st c hlen hbound hval
    refine ⟨by simp, by simp, ?_, ?_⟩
    · intro k i h
      have := hval k i h
      exact ⟨by omega, this.2⟩
    · intro k _ hk
      rcases hk with hk | ⟨r, hr, _⟩
      · exact hk
      · simp at hr
  | cons r rest ih =>
    intro st c hlen hbound hval
    rw [List.foldl_cons]
    have hguard : ¬ (10000 < st.entries.length) := by
      rw [hlen]
      simp only [List.length_cons] at hbound
      omega
    have hpl : processLine st c r
        = (indexEntry { st with entries := st.entries ++ [r] } r c, c + 1) := by
      simp only [processLine, if_neg hguard]
    rw [hpl]
    have hst2len : ({ st with entries := st.entries ++ [r] } : SIndex).entries.length = c + 1 := by
      simp [hlen]
    have hent' : (indexEntry { st with entries := st.entries ++ [r] } r c).entries
        = st.entries ++ [r] :=
      indexEntry_entries _ _ _
    have hval' : ∀ k i,
        lookupD (indexEntry { st with entries := st.entries ++ [r] } r c).section_index k
          = some i →
        i < c + 1 ∧
        ((indexEntry { st with entries := st.entries ++ [r] } r c).entries.getD
          i default).section_id = k := by
      intro k i h
      rw [indexEntry_section_index] at h
      rw [hent']
      by_cases hr : r.section_id ≠ ""
      · rw [if_pos hr] at h
        rw [lookupD_dictInsert] at h
        by_cases hk : k = r.section_id
        · rw [if_pos hk] at h
          have hi : i = c := by
            have := (Option.some.injEq _ _ ▸ h)
            omega
          subst hi
          rw [← hlen, getD_append_len, hk]
          exact ⟨by omega, rfl⟩
        · rw [if_neg hk] at h
          obtain ⟨h1, h2⟩ := hval k i h
          rw [getD_append_lt (by omega)]
          exact ⟨by omega, h2⟩
      · rw [if_neg hr] at h
        obtain ⟨h1, h2⟩ := hval k i h
        rw [getD_append_lt (by omega)]
        exact ⟨by omega, h2⟩
    have hbound' : (c + 1) + rest.length ≤ 10000 := by
      simp only [List.length_cons] at hbound
      omega
    have hlen' : (indexEntry { st with entries := st.entries ++ [r] } r c).entries.length
        = c + 1 := by
      rw [hent']
      simp [hlen]
    obtain ⟨ih1, ih2, ih3, ih4⟩ :=
      ih (indexEntry { st with entries := st.entries ++ [r] } r c) (c + 1)
        hlen' hbound' hval'
    refine ⟨?_, ?_, ?_, ?_⟩
    · rw [ih1, hent']
      simp
    · rw [ih2]
      simp only [List.length_cons]
      omega
    · intro k i h
      obtain ⟨h1, h2⟩ := ih3 k i h
      refine ⟨?_, h2⟩
      simp only [List.length_cons]
      omega
    · intro k hk hsrc
      apply ih4 k hk
      rcases hsrc with hs | ⟨x, hx, hxk⟩
      · left
        rw [indexEntry_section_index]
        by_cases hr : r.section_id ≠ ""
        · rw [if_pos hr, lookupD_dictInsert]
          by_cases hkr : k = r.section_id
          · rw [if_pos hkr]
            rfl
          · rw [if_neg hkr]
            exact hs
        · rw [if_neg hr]
          exact hs
      · rcases List.mem_cons.mp hx with hx1 | hx2
        · have hrk : r.section_id = k := by
            rw [← hx1]
            exact hxk
          left
          rw [indexEntry_section_index]
          rw [if_pos (by rw [hrk]; exact hk), lookupD_dictInsert,
            if_pos hrk.symm]
          rfl
        · right
          exact ⟨x, hx2, hxk⟩

theorem contains_false_not_mem {l : List String} {a : String}
    (h : l.contains a = false) : a ∉ l := by
  intro hmem
  simp [List.elem_iff.mpr hmem, List.contains] at h
  exact h hmem

theorem dedupSeen_nodup (l : List SResult) : ∀ (seen : List String),
    ((dedupSeen seen l).map (fun r => r.section_id)).Nodup ∧
    (∀ s ∈ (dedupSeen seen l).map (fun r => r.section_id), s ∉ seen) := by
  induction l with
  | nil =>
    intro seen
    constructor
    · simp [dedupSeen]
    · simp [dedupSeen]
  | cons r rest ih =>
    intro seen
    by_cases hc : seen.contains r.section_id = true
    · rw [dedupSeen, if_pos hc]
      exact ih seen
    · rw [dedupSeen, if_neg hc]
      have hnotin : r.section_id ∉ seen :=
        contains_false_not_mem (by simpa using hc)
      obtain ⟨ihn, ihs⟩ := ih (seen ++ [r.section_id])
      constructor
      · rw [List.map_cons, List.nodup_cons]
        refine ⟨?_, ihn⟩
        intro hmem
        exact (ihs _ hmem) (by simp)
      · intro s hs
        rw [List.map_cons] at hs
        rcases List.mem_cons.mp hs with h1 | h2
        · rw [h1]
          exact hnotin
        · intro hseen
          exact (ihs s h2) (List.mem_append_left _ hseen)

theorem batchSearch_head (st : SIndex) (q : String) (crows : List CRow)
    {i : Nat} (h : lookupD st.section_index q = some i) :
    (batchSearch st q crows).head?
      = some (fmtResult (st.entries.getD i default) "exact_section") := by
  rw [batchSearch, searchBySectionId, h]
  dsimp only
  rw [List.singleton_append, List.cons_append, List.cons_append]
  rw [dedupSeen, if_neg (by simp)]
  rfl

theorem indexEntry_id (st : SIndex) (i : Nat) :
    indexEntry st ⟨"", "", 0⟩ i = st := by
  simp only [indexEntry]
  rw [if_neg (by simp)]
  rw [show tokenizeWords (⟨"", "", 0⟩ : IdxRow).title = [] from rfl]
  rw [List.foldl_nil]

theorem fold_indexEntry_id (l : List (Nat × IdxRow)) : ∀ (st : SIndex),
    (∀ p ∈ l, p.2 = ⟨"", "", 0⟩) →
    l.foldl (fun s ie => indexEntry s ie.2 ie.1) st = st := by
  induction l with
  | nil =>
    intro st _
    rfl
  | cons p rest ih =>
    intro st h
    rw [List.foldl_cons]
    have hp : p.2 = ⟨"", "", 0⟩ := h p (List.mem_cons_self p rest)
    rw [hp, indexEntry_id]
    exact ih st (fun q hq => h q (List.mem_cons_of_mem p hq))

theorem processLine_empty (st : SIndex) (c : Nat)
    (h : st.entries.length ≤ 10000) :
    processLine st c ⟨"", "", 0⟩
      = ({ st with entries := st.entries ++ [⟨"", "", 0⟩] }, c + 1) := by
  simp only [processLine]
  rw [if_neg (by omega)]
  rw [indexEntry_id]

theorem fold_empty_rows (n : Nat) : ∀ (st : SIndex) (c : Nat),
    st.entries.length + n ≤ 10001 →
    (List.replicate n (⟨"", "", 0⟩ : IdxRow)).foldl
        (fun sc r => processLine sc.1 sc.2 r) (st, c)
      = ({ st with entries := st.entries ++ List.replicate n ⟨"", "", 0⟩ },
         c + n) := by
  induction n with
  | zero =>
    intro st c _
    cases st
    simp
  | succ m ih =>
    intro st c h
    rw [List.replicate_succ, List.foldl_cons]
    dsimp only
    rw [processLine_empty st c (by omega)]
    rw [ih _ _ (by simp only [List.length_append, List.length_singleton]; omega)]
    have hE : (st.entries ++ [(⟨"", "", 0⟩ : IdxRow)])
        ++ List.replicate m ⟨"", "", 0⟩
        = st.entries ++ ⟨"", "", 0⟩ :: List.replicate m ⟨"", "", 0⟩ := by
      rw [List.append_assoc, List.singleton_append]
    rw [hE]
    have hc : c + 1 + m = c + (m + 1) := by omega
    rw [hc]

theorem processBatch_eval :
    processBatch ⟨List.replicate 10001 (⟨"", "", 0⟩ : IdxRow), [], [], []⟩
      = ⟨List.replicate 5000 ⟨"", "", 0⟩, [], [], []⟩ := by
  have hdrop : (List.replicate 10001 (⟨"", "", 0⟩ : IdxRow)).drop
      ((List.replicate 10001 (⟨"", "", 0⟩ : IdxRow)).length - 5000)
      = List.replicate 5000 ⟨"", "", 0⟩ := by
    rw [List.length_replicate, List.drop_replicate]
  have hfold : List.foldl (fun s ie => indexEntry s ie.2 ie.1)
      ⟨List.replicate 5000 ⟨"", "", 0⟩, [], [], []⟩
      (List.replicate 5000 (⟨"", "", 0⟩ : IdxRow)).enum
      = ⟨List.replicate 5000 ⟨"", "", 0⟩, [], [], []⟩ := by
    apply fold_indexEntry_id
    intro p hp
    obtain ⟨i, a⟩ := p
    obtain ⟨h1, h2⟩ := List.mem_enum hp
    rw [h2]
    exact List.getElem_replicate _ h1
  rw [processBatch]
  rw [if_pos (by simp only [List.length_replicate]; omega)]
  dsimp only
  rw [hdrop, hfold]

theorem buildIndex_eviction :
    buildIndex (List.replicate 10001 (⟨"", "", 0⟩ : IdxRow) ++ [⟨"X", "", 7⟩])
      = ⟨List.replicate 5000 ⟨"", "", 0⟩ ++ [⟨"X", "", 7⟩], [],
         [("X", 10001)], [("x", 10001)]⟩ := by
  rw [buildIndex, List.foldl_append]
  rw [fold_empty_rows 10001 ⟨[], [], [], []⟩ 0
    (by simp only [List.length_nil]; omega)]
  have hpair : ({ (⟨[], [], [], []⟩ : SIndex) with
      entries := ([] : List IdxRow) ++ List.replicate 10001 ⟨"", "", 0⟩ },
      (0 + 10001 : Nat))
      = ((⟨List.replicate 10001 ⟨"", "", 0⟩, [], [], []⟩ : SIndex),
         (10001 : Nat)) :=
    Prod.ext (by rfl) (by omega)
  rw [hpair]
  rw [List.foldl_cons, List.foldl_nil]
  dsimp only
  simp only [processLine]
  rw [if_pos (by simp only [List.length_replicate]; omega)]
  rw [processBatch_eval]
  rfl

theorem batchSearch_stale (ents : List IdxRow) (i : Nat)
    (hgd : ents.getD i default = default) :
    (batchSearch ⟨ents, [], [("X", i)], [("x", i)]⟩ "X" []).head?
      = some ⟨"", "", 0, "exact_section"⟩ := by
  have hl : lookupD ((⟨ents, [], [("X", i)], [("x", i)]⟩ : SIndex)).section_index
      "X" = some i := by
    dsimp only
    rw [lookupD, if_pos rfl]
  have hsbs : searchBySectionId ⟨ents, [], [("X", i)], [("x", i)]⟩ "X"
      = [⟨"", "", 0, "exact_section"⟩] := by
    rw [searchBySectionId, hl]
    dsimp only
    rw [hgd]
    rw [show (List.take 50 [(("x" : String), i)]) = [("x", i)] from rfl]
    rw [List.filterMap_cons]
    dsimp only
    rw [hgd]
    rw [if_neg (by decide)]
    rfl
  rw [batchSearch, hsbs]
  rw [show searchByText ⟨ents, [], [("X", i)], [("x", i)]⟩ "X" = [] from rfl]
  rw [show searchContentFile [] "X" = [] from rfl]
  rfl

/-- C5 counterexample: an index built from 10002 rows (10001 unnumbered
rows followed by section X) triggers the streaming eviction, after which
the entry is indexed under the global line counter 10001 while only 5001
entries remain stored; the exact-section lookup therefore points past the
entries list (the code raises IndexError there), and batch search does not
return the X entry first. -/
theorem batch_search_eviction_counterexample :
    lookupD (buildIndex (List.replicate 10001 (⟨"", "", 0⟩ : IdxRow)
        ++ [⟨"X", "", 7⟩])).section_index "X" = some 10001 ∧
    (buildIndex (List.replicate 10001 (⟨"", "", 0⟩ : IdxRow)
        ++ [⟨"X", "", 7⟩])).entries.length = 5001 ∧
    ¬ (10001 < 5001) ∧
    ((⟨"X", "", 7⟩ : IdxRow) ∈ List.replicate 10001 (⟨"", "", 0⟩ : IdxRow)
        ++ [⟨"X", "", 7⟩]) ∧
    (batchSearch (buildIndex (List.replicate 10001 (⟨"", "", 0⟩ : IdxRow)
        ++ [⟨"X", "", 7⟩])) "X" []).head?
      = some ⟨"", "", 0, "exact_section"⟩ ∧
    (⟨"", "", 0, "exact_section"⟩ : SResult).section_id ≠ "X" := by
  refine ⟨?_, ?_, by omega,
    List.mem_append_right _ (List.mem_singleton_self _), ?_, by decide⟩
  · rw [buildIndex_eviction]
    rfl
  · rw [buildIndex_eviction]
    dsimp only
    rw [List.length_append, List.length_replicate, List.length_singleton]
  · rw [buildIndex_eviction]
    exact batchSearch_stale _ 10001
      (by rw [List.getD_eq_getElem?_getD, List.getElem?_eq_none
        (by rw [List.length_append, List.length_replicate,
          List.length_singleton]; omega)]; rfl)

/-- C5 amended: for every index built from at most 10000 parsed rows
(below the eviction threshold) and every query that verbatim equals the
section_id of an indexed entry, batch search returns a non-empty result
list whose first element is the exact-section match formatted from that
entry, and the section identifiers of the returned list are pairwise
distinct (first-seen deduplication across the exact, partial, text and
content strategies). -/
theorem batch_search_exact (rows : List IdxRow) (crows : List CRow)
    (q : String) (hlen : rows.length ≤ 10000) (hq : q ≠ "")
    (hmem : ∃ r ∈ rows, r.section_id = q) :
    ∃ i, i < rows.length ∧ (buildIndex rows).entries = rows ∧
      (rows.getD i default).section_id = q ∧
      (batchSearch (buildIndex rows) q crows).head?
        = some (fmtResult (rows.getD i default) "exact_section") ∧
      ((batchSearch (buildIndex rows) q crows).map
        (fun r => r.section_id)).Nodup := by
  obtain ⟨hent, hcnt, hval, hmemb⟩ := buildFold_spec rows ⟨[], [], [], []⟩ 0
    rfl (by omega)
    (by intro k i h; rw [lookupD] at h; exact absurd h (by simp))
  have hents : (buildIndex rows).entries = rows := by
    rw [buildIndex, hent]
    rfl
  have hsome := hmemb q hq (Or.inr hmem)
  obtain ⟨i, hlook⟩ := Option.isSome_iff_exists.mp hsome
  obtain ⟨hisz, hgd⟩ := hval q i hlook
  refine ⟨i, by omega, hents, ?_, ?_, ?_⟩
  · rw [hent] at hgd
    simpa using hgd
  · have hh := batchSearch_head (buildIndex rows) q crows
      (by rw [buildIndex]; exact hlook)
    rw [hh, hents]
  · exact (dedupSeen_nodup _ []).1

/-- Witness for C5 on a one-row index: searching the section identifier
1.1 verbatim. -/
theorem batch_search_exact_witness :
    ∃ i, i < 1 ∧
      (buildIndex [⟨"1.1", "Overview", 2⟩]).entries
        = [⟨"1.1", "Overview", 2⟩] ∧
      (([⟨"1.1", "Overview", 2⟩] : List IdxRow).getD i default).section_id
        = "1.1" ∧
      (batchSearch (buildIndex [⟨"1.1", "Overview", 2⟩]) "1.1" []).head?
        = some (fmtResult (([⟨"1.1", "Overview", 2⟩] : List IdxRow).getD i
          default) "exact_section") ∧
      ((batchSearch (buildIndex [⟨"1.1", "Overview", 2⟩]) "1.1" []).map
        (fun r => r.section_id)).Nodup :=
  batch_search_exact [⟨"1.1", "Overview", 2⟩] [] "1.1" (by simp) (by decide)
    ⟨⟨"1.1", "Overview", 2⟩, by decide, rfl⟩

end CP
